import Mathlib

/-!
Verification of the state-history trace converter core (trace_converter.cpp and
compression.hpp): the prunable-data codec, the zlib section codec, the v1 log
entry encode/decode paths, the in-place pruning engine, and the trace
accumulator.  Byte buffers are `List Nat`; the external block compressor and
decompressor are explicit function parameters; the generic binary serializer
(fc::raw), which lives outside the source core, is modelled from the spec as a
concrete deterministic length-symmetric format.
-/

/-- A byte buffer.  Bytes written by the functions below are always < 256. -/
abbrev Bytes := List Nat

/-- The error kinds of the core, per the error-handling design: out-of-range
reads, missing cached traces during assembly, unsupported prune operations,
the "Not implemented" assertion of restore_partial, and invalid variant tags
rejected by the deserializer. -/
inductive Err where
  | OutOfRange
  | MissingData
  | UnsupportedOperation
  | NotImplemented
  | BadTag
deriving DecidableEq

deriving instance DecidableEq for Except

/-- Little-endian 4-byte length field, as written by `length_writer` and by the
empty-sequence case of `zlib_pack` (`fc::raw::pack(strm, uint32_t(0))`). -/
def u32le (n : Nat) : Bytes :=
  [n % 256, n / 256 % 256, n / 65536 % 256, n / 16777216 % 256]

/-- Structural helper for `varNat`; the first argument is fuel bounding the
number of 7-bit groups. -/
def varNatAux : Nat → Nat → Bytes
  | 0, n => [n]
  | fuel + 1, n => if n < 128 then [n] else (n % 128 + 128) :: varNatAux fuel (n / 128)

/-- Modelled from the spec: the variable-length natural-number encoding used by
the generic binary serializer (fc::raw, outside the source core) for vector
sizes and opaque scalar fields. -/
def varNat (n : Nat) : Bytes := varNatAux n n

/-- Read one byte (fc::raw::unpack of a uint8_t from a datastream). -/
def pByte : Bytes → Except Err (Nat × Bytes)
  | [] => .error .OutOfRange
  | b :: rest => .ok (b, rest)

/-- Parser of `varNat`. -/
def pVar : Bytes → Except Err (Nat × Bytes)
  | [] => .error .OutOfRange
  | b :: rest =>
    if b < 128 then .ok (b, rest)
    else
      match pVar rest with
      | .ok (m, r2) => .ok (b - 128 + 128 * m, r2)
      | .error e => .error e

/-- Read a 4-byte little-endian length (fc::raw::unpack of a uint32_t). -/
def pU32 : Bytes → Except Err (Nat × Bytes)
  | b0 :: b1 :: b2 :: b3 :: rest =>
    .ok (b0 + 256 * b1 + 65536 * b2 + 16777216 * b3, rest)
  | _ => .error .OutOfRange

/-- Modelled from the spec: serialization of a byte sequence (length then
content), per the generic serializer contract. -/
def serBytes (b : Bytes) : Bytes := varNat b.length ++ b

/-- Parser of `serBytes`. -/
def pBytesV (b : Bytes) : Except Err (Bytes × Bytes) :=
  match pVar b with
  | .error e => .error e
  | .ok (n, rest) =>
    if n ≤ rest.length then .ok (rest.take n, rest.drop n) else .error .OutOfRange

/-- Concatenated serializations of the items of a list. -/
def serItems (f : α → Bytes) : List α → Bytes
  | [] => []
  | x :: xs => f x ++ serItems f xs

/-- Modelled from the spec: serialization of a vector (size then items). -/
def serList (f : α → Bytes) (xs : List α) : Bytes := varNat xs.length ++ serItems f xs

/-- Parse `n` consecutive items. -/
def pListN (p : Bytes → Except Err (α × Bytes)) : Nat → Bytes → Except Err (List α × Bytes)
  | 0, b => .ok ([], b)
  | n + 1, b =>
    match p b with
    | .error e => .error e
    | .ok (x, b1) =>
      match pListN p n b1 with
      | .error e => .error e
      | .ok (xs, b2) => .ok (x :: xs, b2)

/-- Parser of `serList`. -/
def pList (p : Bytes → Except Err (α × Bytes)) (b : Bytes) : Except Err (List α × Bytes) :=
  match pVar b with
  | .error e => .error e
  | .ok (n, b1) => pListN p n b1

/-- zlib_pack from compression.hpp: an empty sequence is written as a 4-byte
zero length and nothing else (no compression); otherwise a `length_writer`
section is opened and the serialization of the value is fed through the
compressing adapter into it, the real length being back-patched on close. -/
def zlib_pack (compress : Bytes → Bytes) (ser : α → Bytes) (isEmp : α → Bool) (x : α) : Bytes :=
  if isEmp x then u32le 0
  else
    let payload := compress (ser x)
    u32le payload.length ++ payload

/-- zlib_unpack (buffer form) from compression.hpp: read a 4-byte length; zero
leaves the in-out object untouched; otherwise require at least that many bytes
to remain, decompress exactly that many, deserialize the object from the
decompressed bytes, and skip the entire declared length. -/
def zlib_unpack (decompress : Bytes → Bytes) (p : Bytes → Except Err (α × Bytes))
    (b : Bytes) (obj : α) : Except Err (α × Bytes) :=
  match pU32 b with
  | .error e => .error e
  | .ok (len, b1) =>
    if len = 0 then .ok (obj, b1)
    else if b1.length < len then .error .OutOfRange
    else
      match p (decompress (b1.take len)) with
      | .error e => .error e
      | .ok (v, _) => .ok (v, b1.drop len)

/-- The prunable-data variant of a packed transaction.  The variant shapes are
modelled from the spec (packed_transaction lives outside the source core):
`none` carries nothing; the other alternatives carry signatures and
context-free segments; `partV` is the Partial state that the redaction path
does not support.  Signatures are opaque scalars. -/
inductive PrunableData where
  | full_legacy (signatures : List Nat) (context_free_segments : List Bytes)
  | none
  | partV (signatures : List Nat) (context_free_segments : List Bytes)
  | full (signatures : List Nat) (context_free_segments : List Bytes)
deriving DecidableEq

/-- The static_variant tag (`which()`) of each alternative. -/
def PrunableData.tag : PrunableData → Nat
  | .full_legacy _ _ => 0
  | .none => 1
  | .partV _ _ => 2
  | .full _ _ => 3

/-- Modelled from the spec: `prunable_data_type::prune_all` (outside the source
core) yields the fully-stripped form carrying neither signatures nor
context-free data; invoking it on the Partial state is the unsupported
operation called out by the error-handling design. -/
def prune_all : PrunableData → Except Err PrunableData
  | .partV _ _ => .error .UnsupportedOperation
  | _ => .ok .none

/-- prune from trace_converter.cpp: `none` is returned unchanged; any other
variant is returned unchanged when both its signatures and its context-free
segments are empty, and otherwise replaced by `prune_all`. -/
def prune : PrunableData → Except Err PrunableData
  | .none => .ok .none
  | .full_legacy s c =>
    if s = [] ∧ c = [] then .ok (.full_legacy s c) else prune_all (.full_legacy s c)
  | .partV s c =>
    if s = [] ∧ c = [] then .ok (.partV s c) else prune_all (.partV s c)
  | .full s c =>
    if s = [] ∧ c = [] then .ok (.full s c) else prune_all (.full s c)

/-- pack of a prunable_data_type from trace_converter.cpp: a one-byte variant
tag, then nothing for `none`, and otherwise the signatures followed by the
zlib-packed context-free segments. -/
def pack (compress : Bytes → Bytes) (d : PrunableData) : Bytes :=
  d.tag :: (match d with
  | .none => []
  | .full_legacy s c =>
    serList varNat s ++ zlib_pack compress (serList serBytes) List.isEmpty c
  | .partV s c =>
    serList varNat s ++ zlib_pack compress (serList serBytes) List.isEmpty c
  | .full s c =>
    serList varNat s ++ zlib_pack compress (serList serBytes) List.isEmpty c)

/-- unpack of a prunable_data_type from trace_converter.cpp: read the tag byte,
`set_which` it (an out-of-range tag is rejected), then read nothing for `none`
and otherwise the signatures followed by the zlib-unpacked context-free
segments (which default to empty). -/
def unpack_prunable (decompress : Bytes → Bytes) (b : Bytes) :
    Except Err (PrunableData × Bytes) :=
  match b with
  | [] => .error .OutOfRange
  | tag :: b1 =>
    if tag = 1 then .ok (.none, b1)
    else if tag = 0 ∨ tag = 2 ∨ tag = 3 then
      match pList pVar b1 with
      | .error e => .error e
      | .ok (s, b2) =>
        match zlib_unpack decompress (pList pBytesV) b2 [] with
        | .error e => .error e
        | .ok (c, b3) =>
          .ok (if tag = 0 then .full_legacy s c else if tag = 2 then .partV s c
               else .full s c, b3)
    else .error .BadTag

/-- The non-prunable part of a partial_transaction_v0: signatures, context-free
data, and an opaque scalar standing for the remaining (unprunable) fields. -/
structure PartTx where
  signatures : List Nat
  context_free_data : List Bytes
  others : Nat
deriving DecidableEq

/-- A ship transaction_trace_v0: its id, optional receipt, optional
failed-dtrx sub-trace (a vector with at most one element in the source,
encoded as an optional), and optional partial transaction.  The sub-trace
presence is split into the two constructors. -/
inductive Ttrace where
  | leaf (id : Nat) (receipt : Option Nat) (part : Option PartTx)
  | failed (id : Nat) (receipt : Option Nat) (sub : Ttrace) (part : Option PartTx)
deriving DecidableEq

/-- The trace's own id (`trace.id`). -/
def Ttrace.tid : Ttrace → Nat
  | .leaf i _ _ => i
  | .failed i _ _ _ => i

/-- The trace's receipt. -/
def Ttrace.rcpt : Ttrace → Option Nat
  | .leaf _ r _ => r
  | .failed _ r _ _ => r

/-- Modelled from the spec: serialization of an optional scalar. -/
def serOptNat : Option Nat → Bytes
  | Option.none => [0]
  | Option.some n => 1 :: varNat n

/-- Modelled from the spec: serialization of a partial_transaction_v0 (the
unprunable fields, then signatures, then context-free data). -/
def serPartTx (p : PartTx) : Bytes :=
  varNat p.others ++ serList varNat p.signatures ++ serList serBytes p.context_free_data

/-- Serialization of an optional partial transaction. -/
def serOptPart : Option PartTx → Bytes
  | Option.none => [0]
  | Option.some p => 1 :: serPartTx p

/-- Modelled from the spec: serialization of a transaction_trace_v0 (id,
receipt, failed-dtrx optional, partial), per the generic serializer. -/
def serTrace : Ttrace → Bytes
  | .leaf i r p => varNat i ++ serOptNat r ++ [0] ++ serOptPart p
  | .failed i r s p => varNat i ++ serOptNat r ++ 1 :: serTrace s ++ serOptPart p

/-- Serialization of a trace vector; this is also the "traces bin v0" format
returned by `to_traces_bin_v0`. -/
def serTraces (ts : List Ttrace) : Bytes := serList serTrace ts

/-- Parser of `serOptNat`. -/
def pOptNat (b : Bytes) : Except Err (Option Nat × Bytes) :=
  match b with
  | [] => .error .OutOfRange
  | f :: b1 =>
    if f = 0 then .ok (Option.none, b1)
    else if f = 1 then
      match pVar b1 with
      | .error e => .error e
      | .ok (n, b2) => .ok (Option.some n, b2)
    else .error .BadTag

/-- Parser of `serPartTx`. -/
def pPartTx (b : Bytes) : Except Err (PartTx × Bytes) :=
  match pVar b with
  | .error e => .error e
  | .ok (o, b1) =>
    match pList pVar b1 with
    | .error e => .error e
    | .ok (s, b2) =>
      match pList pBytesV b2 with
      | .error e => .error e
      | .ok (c, b3) => .ok (⟨s, c, o⟩, b3)

/-- Parser of `serOptPart`. -/
def pOptPart (b : Bytes) : Except Err (Option PartTx × Bytes) :=
  match b with
  | [] => .error .OutOfRange
  | f :: b1 =>
    if f = 0 then .ok (Option.none, b1)
    else if f = 1 then
      match pPartTx b1 with
      | .error e => .error e
      | .ok (p, b2) => .ok (Option.some p, b2)
    else .error .BadTag

/-- Parser of `serTrace`; the fuel bounds the failed-dtrx nesting depth. -/
def pTrace : Nat → Bytes → Except Err (Ttrace × Bytes)
  | fuel, b =>
    match pVar b with
    | .error e => .error e
    | .ok (i, b1) =>
      match pOptNat b1 with
      | .error e => .error e
      | .ok (r, b2) =>
        match b2 with
        | [] => .error .OutOfRange
        | flag :: b3 =>
          if flag = 0 then
            match pOptPart b3 with
            | .error e => .error e
            | .ok (p, b4) => .ok (.leaf i r p, b4)
          else if flag = 1 then
            match fuel with
            | 0 => .error .OutOfRange
            | fuel' + 1 =>
              match pTrace fuel' b3 with
              | .error e => .error e
              | .ok (s, b4) =>
                match pOptPart b4 with
                | .error e => .error e
                | .ok (p, b5) => .ok (.failed i r s p, b5)
          else .error .BadTag

/-- Parser of `serTraces`; the input buffer's length bounds the fuel. -/
def pTracesTop (b : Bytes) : Except Err (List Ttrace × Bytes) :=
  match pVar b with
  | .error e => .error e
  | .ok (n, b1) => pListN (pTrace b.length) n b1

/-- The unprunable view of a partial transaction: the history serializer for
version ≥ 1 writes the signatures and context-free data as empty. -/
def skeletonP (p : PartTx) : PartTx := ⟨[], [], p.others⟩

/-- The unprunable view of a trace (prunable fields emptied everywhere). -/
def skeletonT : Ttrace → Ttrace
  | .leaf i r p => .leaf i r (p.map skeletonP)
  | .failed i r s p => .failed i r (skeletonT s) (p.map skeletonP)

/-- restore_partial from trace_converter.cpp: full_legacy and full move their
signatures and context-free segments into the partial transaction, none leaves
it untouched, and the Partial state asserts "Not implemented". -/
def restore_part_v0 (p : PartTx) : PrunableData → Except Err PartTx
  | .full_legacy s c => .ok ⟨s, c, p.others⟩
  | .none => .ok p
  | .partV _ _ => .error .NotImplemented
  | .full s c => .ok ⟨s, c, p.others⟩

/-- visit_deserialized_trace with the restore_partial visitor, as used by
`to_traces_bin_v0`: recurse into the failed-dtrx sub-trace first, then, if the
trace carries a partial record, unpack one prunable section and restore it. -/
def visit_restore (decompress : Bytes → Bytes) : Ttrace → Bytes → Except Err (Ttrace × Bytes)
  | .leaf i r part, b =>
    match part with
    | Option.some p =>
      match unpack_prunable decompress b with
      | .error e => .error e
      | .ok (d, b1) =>
        match restore_part_v0 p d with
        | .error e => .error e
        | .ok p' => .ok (.leaf i r (Option.some p'), b1)
    | Option.none => .ok (.leaf i r Option.none, b)
  | .failed i r s part, b =>
    match visit_restore decompress s b with
    | .error e => .error e
    | .ok (s', b1) =>
      match part with
      | Option.some p =>
        match unpack_prunable decompress b1 with
        | .error e => .error e
        | .ok (d, b2) =>
          match restore_part_v0 p d with
          | .error e => .error e
          | .ok p' => .ok (.failed i r s' (Option.some p'), b2)
      | Option.none => .ok (.failed i r s' Option.none, b1)

/-- The per-trace loop of the v1 decode path. -/
def visit_restore_all (decompress : Bytes → Bytes) :
    List Ttrace → Bytes → Except Err (List Ttrace × Bytes)
  | [], b => .ok ([], b)
  | t :: ts, b =>
    match visit_restore decompress t b with
    | .error e => .error e
    | .ok (t', b1) =>
      match visit_restore_all decompress ts b1 with
      | .error e => .error e
      | .ok (ts', b2) => .ok (t' :: ts', b2)

/-- trace_converter::to_traces_bin_v0: version 0 zlib-decompresses the whole
payload; otherwise the unprunable section is zlib-unpacked into trace
skeletons, each trace's prunable section is read and restored in traversal
order, and the reconstituted traces are re-serialized. -/
def to_traces_bin_v0 (decompress : Bytes → Bytes) (entry_payload : Bytes) (version : Nat) :
    Except Err Bytes :=
  if version = 0 then .ok (decompress entry_payload)
  else
    match zlib_unpack decompress pTracesTop entry_payload [] with
    | .error e => .error e
    | .ok (traces, rest) =>
      match visit_restore_all decompress traces rest with
      | .error e => .error e
      | .ok (traces', _) => .ok (serTraces traces')

/-- A packed transaction, reduced to its id and its prunable data. -/
structure PackedTrx where
  ptid : Nat
  prunable : PrunableData
deriving DecidableEq

/-- An augmented_transaction_trace: a trace with an optional packed
transaction. -/
structure AugTrace where
  trace : Ttrace
  packed : Option PackedTrx
deriving DecidableEq

/-- for_each_packed_transaction from trace_converter.cpp, collecting the
prunable data emitted for one augmented trace: recurse into the failed-dtrx
sub-trace first (inheriting the packed transaction), and emit one section at
a trace with no failed-dtrx sub-trace and a packed transaction. -/
def for_each_packed (packed : Option PackedTrx) : Ttrace → List PrunableData
  | .leaf _ _ _ =>
    match packed with
    | Option.some pt => [pt.prunable]
    | Option.none => []
  | .failed _ _ s _ => for_each_packed packed s

/-- The prunable sections emitted for a trace vector, in traversal order. -/
def prunables_list : List AugTrace → List PrunableData
  | [] => []
  | a :: as => for_each_packed a.packed a.trace ++ prunables_list as

/-- trace_converter::pack (after prepare_traces): version 0 zlib-packs the full
trace serialization as one blob; version ≥ 1 writes a length-prefixed entry
holding the zlib-packed unprunable section followed by one packed prunable
section per qualifying packed transaction.  The leading 4 bytes are the outer
length field; decode receives the payload after them. -/
def pack_traces (compress : Bytes → Bytes) (version : Nat) (augs : List AugTrace) : Bytes :=
  if version = 0 then
    zlib_pack compress serTraces (fun _ => false) (augs.map AugTrace.trace)
  else
    let payload :=
      zlib_pack compress serTraces (fun _ => false)
        (augs.map (fun a => skeletonT a.trace)) ++
      serItems (pack compress) (prunables_list augs)
    u32le payload.length ++ payload

/-- The trace_pruner cursor state: the shared buffer, the read cursor, the
write cursor, the first-change position (0 meaning none yet), and the
remaining redaction id list. -/
structure PruneState where
  buf : Bytes
  readPos : Nat
  writePos : Nat
  changePos : Nat
  ids : List Nat
deriving DecidableEq

/-- A bounds-checked write at a position of the shared buffer
(fc::datastream's write over the entry payload). -/
def write_at (buf : Bytes) (pos : Nat) (bytes : Bytes) : Except Err Bytes :=
  if pos + bytes.length ≤ buf.length then
    .ok (buf.take pos ++ bytes ++ buf.drop (pos + bytes.length))
  else .error .OutOfRange

/-- One step of the pruning engine for the trace with id `traceId`: unpack the
prunable section at the read cursor (visit_deserialized_trace), then
trace_pruner::operator(): if the id is to be pruned, record the first change
position, write the packed pruned form at the write cursor and erase the id;
if nothing has changed yet, skip the write cursor over the original bytes;
otherwise copy the original section bytes from the read position down to the
write position. -/
def prune_step (compress decompress : Bytes → Bytes) (traceId : Nat) (s : PruneState) :
    Except Err PruneState :=
  match unpack_prunable decompress (s.buf.drop s.readPos) with
  | .error e => .error e
  | .ok (d, rest) =>
    if s.ids.contains traceId then
      match prune d with
      | .error e => .error e
      | .ok d' =>
        match write_at s.buf s.writePos (pack compress d') with
        | .error e => .error e
        | .ok buf' =>
          .ok ⟨buf', s.readPos + ((s.buf.drop s.readPos).length - rest.length),
               s.writePos + (pack compress d').length,
               if s.changePos = 0 then s.writePos else s.changePos,
               s.ids.erase traceId⟩
    else if s.changePos = 0 then
      .ok ⟨s.buf, s.readPos + ((s.buf.drop s.readPos).length - rest.length),
           s.writePos + ((s.buf.drop s.readPos).length - rest.length), 0, s.ids⟩
    else
      match write_at s.buf s.writePos
          ((s.buf.drop s.readPos).take ((s.buf.drop s.readPos).length - rest.length)) with
      | .error e => .error e
      | .ok buf' =>
        .ok ⟨buf', s.readPos + ((s.buf.drop s.readPos).length - rest.length),
             s.writePos + ((s.buf.drop s.readPos).length - rest.length), s.changePos, s.ids⟩

/-- visit_deserialized_trace with the trace_pruner visitor: recurse into the
failed-dtrx sub-trace first, then, if the trace carries a partial record,
process one prunable section.  The state reached so far is kept alongside any
error, since the buffer is mutated in place. -/
def visit_prune (compress decompress : Bytes → Bytes) :
    Ttrace → PruneState → Option Err × PruneState
  | .leaf i _ part, s =>
    match part with
    | Option.some _ =>
      match prune_step compress decompress i s with
      | .ok s' => (Option.none, s')
      | .error e => (Option.some e, s)
    | Option.none => (Option.none, s)
  | .failed i _ sub part, s =>
    match visit_prune compress decompress sub s with
    | (Option.some e, s1) => (Option.some e, s1)
    | (Option.none, s1) =>
      match part with
      | Option.some _ =>
        match prune_step compress decompress i s1 with
        | .ok s' => (Option.none, s')
        | .error e => (Option.some e, s1)
      | Option.none => (Option.none, s1)

/-- The per-trace loop of prune_traces. -/
def visit_prune_all (compress decompress : Bytes → Bytes) :
    List Ttrace → PruneState → Option Err × PruneState
  | [], s => (Option.none, s)
  | t :: ts, s =>
    match visit_prune compress decompress t s with
    | (Option.some e, s1) => (Option.some e, s1)
    | (Option.none, s1) => visit_prune_all compress decompress ts s1

/-- trace_pruner::changed_region: the changed byte range, zero-length when no
id matched. -/
def changed_region (s : PruneState) : Nat × Nat :=
  if s.changePos = 0 then (0, 0) else (s.changePos, s.writePos)

/-- trace_converter::prune_traces: assert the version is not 0, zlib-unpack
the unprunable section to obtain the trace skeletons and position the read
cursor, initialize the write cursor to the same offset, prune every trace in
traversal order, and return the changed region.  The (possibly mutated)
buffer and id list are returned alongside the result, since the source
mutates them in place. -/
def prune_traces (compress decompress : Bytes → Bytes) (entry_payload : Bytes)
    (version : Nat) (ids : List Nat) :
    Except Err (Nat × Nat) × Bytes × List Nat :=
  if version = 0 then (.error .UnsupportedOperation, entry_payload, ids)
  else
    match zlib_unpack decompress pTracesTop entry_payload [] with
    | .error e => (.error e, entry_payload, ids)
    | .ok (traces, rest) =>
      let start := entry_payload.length - rest.length
      match visit_prune_all compress decompress traces ⟨entry_payload, start, start, 0, ids⟩ with
      | (Option.some e, s) => (.error e, s.buf, s.ids)
      | (Option.none, s) => (.ok (changed_region s), s.buf, s.ids)

/-- The ids of the trace nodes carrying a partial record, in the traversal
order in which their prunable sections are visited. -/
def visit_order : Ttrace → List Nat
  | .leaf i _ part => if part.isSome then [i] else []
  | .failed i _ sub part => visit_order sub ++ (if part.isSome then [i] else [])

/-- Traversal order over a trace vector. -/
def visit_order_all : List Ttrace → List Nat
  | [] => []
  | t :: ts => visit_order t ++ visit_order_all ts

/-- The cursor states of a pruning run: the initial state and the state after
each completed section step (stopping at an error). -/
def run_states (step : Nat → PruneState → Except Err PruneState) :
    PruneState → List Nat → List PruneState
  | s, [] => [s]
  | s, i :: is =>
    s :: (match step i s with
          | .ok s' => run_states step s' is
          | .error _ => [])

/-- The visit loop as a fold over the traversal order. -/
def run_prune (step : Nat → PruneState → Except Err PruneState) :
    PruneState → List Nat → Option Err × PruneState
  | s, [] => (Option.none, s)
  | s, i :: is =>
    match step i s with
    | .ok s' => run_prune step s' is
    | .error e => (Option.some e, s)

/-- All cursor states traversed by prune_traces on a version-1 entry: the
state after initial positioning and after each prunable section. -/
def prune_states (compress decompress : Bytes → Bytes) (entry_payload : Bytes)
    (ids : List Nat) : List PruneState :=
  match zlib_unpack decompress pTracesTop entry_payload [] with
  | .error _ => []
  | .ok (traces, rest) =>
    let start := entry_payload.length - rest.length
    run_states (prune_step compress decompress) ⟨entry_payload, start, start, 0, ids⟩
      (visit_order_all traces)

/-- The trace_converter accumulator state: the id-keyed cache of augmented
traces (std::map modelled as an association list) and the optional on-block
trace. -/
structure trace_converter where
  cached_traces : List (Nat × AugTrace)
  onblock_trace : Option AugTrace
deriving DecidableEq

/-- A block transaction reference: an explicit transaction id or an embedded
packed transaction. -/
inductive TrxRef where
  | tid (i : Nat)
  | ptrx (p : PackedTrx)
deriving DecidableEq

/-- The id a block transaction reference resolves to. -/
def refId : TrxRef → Nat
  | .tid i => i
  | .ptrx p => p.ptid

/-- std::map::find over the cache. -/
def lookupCached : List (Nat × AugTrace) → Nat → Option AugTrace
  | [], _ => Option.none
  | (k, a) :: rest, i => if k = i then Option.some a else lookupCached rest i

/-- The lookup loop of prepare_traces: resolve each block transaction
reference and require a cached entry with a receipt. -/
def prepare_traces_go (cache : List (Nat × AugTrace)) (acc : List AugTrace) :
    List TrxRef → Except Err (List AugTrace)
  | [] => .ok acc
  | r :: rs =>
    match lookupCached cache (refId r) with
    | Option.some a =>
      if a.trace.rcpt.isSome then prepare_traces_go cache (acc ++ [a]) rs
      else .error .MissingData
    | Option.none => .error .MissingData

/-- The initial trace list of prepare_traces: the on-block trace if present. -/
def onblock_start : Option AugTrace → List AugTrace
  | Option.some t => [t]
  | Option.none => []

/-- prepare_traces from trace_converter.cpp: start with the on-block trace if
present, append the cached trace of each block transaction (failing with
MissingData when one is absent or has no receipt), and clear the cache and
on-block slot after the loop.  The EOS_ASSERT failure propagates before the
clearing statements run, so on error the accumulator is returned unchanged. -/
def prepare_traces (conv : trace_converter) (blockTrxs : List TrxRef) :
    Except Err (List AugTrace) × trace_converter :=
  match prepare_traces_go conv.cached_traces (onblock_start conv.onblock_trace) blockTrxs with
  | .ok traces => (.ok traces, ⟨[], Option.none⟩)
  | .error e => (.error e, conv)

/-- An in-memory byte source with an explicit cursor (fc::datastream). -/
structure DataSrc where
  buf : Bytes
  pos : Nat
deriving DecidableEq

/-- A bounds-checked read of `n` bytes from the source; the failure leaves the
cursor where it was. -/
def DataSrc.read (s : DataSrc) (n : Nat) : Except Err Bytes × DataSrc :=
  if s.pos + n ≤ s.buf.length then
    (.ok ((s.buf.drop s.pos).take n), ⟨s.buf, s.pos + n⟩)
  else (.error .OutOfRange, s)

/-- restriced_data_source from compression.hpp: a source decorated with a byte
budget. -/
structure RestrictedSrc where
  strm : DataSrc
  remaining : Nat
deriving DecidableEq

/-- restriced_data_source::read: assert the requested length does not exceed
the remaining budget (OutOfRange otherwise, with nothing consumed), then
decrement the budget and delegate to the wrapped source. -/
def RestrictedSrc.read (s : RestrictedSrc) (n : Nat) : Except Err Bytes × RestrictedSrc :=
  if n ≤ s.remaining then
    match s.strm.read n with
    | (r, strm') => (r, ⟨strm', s.remaining - n⟩)
  else (.error .OutOfRange, s)

/-- Consistency of a trace's partial record with the prunable data of its
packed transaction: the prunable section must reproduce exactly the
signatures and context-free data the trace carried. -/
def consistent_pd (p : PartTx) (d : PrunableData) : Bool :=
  match d with
  | .none => p.signatures = [] ∧ p.context_free_data = []
  | .full_legacy s c => p.signatures = s ∧ p.context_free_data = c
  | .partV _ _ => false
  | .full s c => p.signatures = s ∧ p.context_free_data = c

/-- Consistency of a trace with its (inherited) packed transaction: a trace
with a failed-dtrx sub-trace carries no partial record of its own; a leaf
carries a partial record exactly when a packed transaction is present, and
then the prunable data matches the partial record. -/
def consistentT (packed : Option PackedTrx) : Ttrace → Bool
  | .leaf _ _ part =>
    match packed, part with
    | Option.some pt, Option.some p => consistent_pd p pt.prunable
    | Option.none, Option.none => true
    | _, _ => false
  | .failed _ _ sub part => part.isNone && consistentT packed sub

/-- Consistency of an augmented trace. -/
def consistentA (a : AugTrace) : Bool := consistentT a.packed a.trace

/-- The context-free-segment payloads a prunable section compresses (none when
the segments are empty, since the empty case skips compression). -/
def seg_payloads : PrunableData → List Bytes
  | .none => []
  | .full_legacy _ c => if c = [] then [] else [serList serBytes c]
  | .partV _ c => if c = [] then [] else [serList serBytes c]
  | .full _ c => if c = [] then [] else [serList serBytes c]

/-- The segment payloads of a list of prunable sections. -/
def seg_payloads_all : List PrunableData → List Bytes
  | [] => []
  | d :: ds => seg_payloads d ++ seg_payloads_all ds

/-- Every byte string fed to the compressor while encoding a v1 entry: the
unprunable trace serialization and each nonempty context-free-segment
serialization. -/
def payloads_of (augs : List AugTrace) : List Bytes :=
  serTraces (augs.map (fun a => skeletonT a.trace)) ::
    seg_payloads_all (prunables_list augs)

/-- A concrete accumulator used to exercise the failure path of
prepare_traces. -/
def conv_cex : trace_converter :=
  ⟨[(5, ⟨.leaf 5 (Option.some 1) Option.none, Option.none⟩)], Option.none⟩

/-- A concrete accumulator with an on-block trace and one cached trace, used
to exercise the success path of prepare_traces. -/
def conv_ok : trace_converter :=
  ⟨[(5, ⟨.leaf 5 (Option.some 1) Option.none, Option.none⟩)],
   Option.some ⟨.leaf 9 (Option.some 1) Option.none, Option.none⟩⟩

/-- A concrete augmented trace whose packed transaction is in the Partial
prunable-data state. -/
def aug_partV : AugTrace :=
  ⟨.leaf 3 (Option.some 1) (Option.some ⟨[], [], 11⟩),
   Option.some ⟨3, .partV [7] []⟩⟩

/-- A concrete augmented trace whose packed transaction is in the Partial
state with empty signatures and empty context-free segments. -/
def aug_partV_empty : AugTrace :=
  ⟨.leaf 7 (Option.some 1) (Option.some ⟨[], [], 2⟩),
   Option.some ⟨7, .partV [] []⟩⟩

/-- A concrete consistent pair of augmented traces (one with data to prune,
one without a packed transaction). -/
def augs_demo : List AugTrace :=
  [⟨.leaf 4 (Option.some 1) (Option.some ⟨[9], [[1, 2]], 3⟩),
    Option.some ⟨4, .full_legacy [9] [[1, 2]]⟩⟩,
   ⟨.leaf 6 (Option.some 0) Option.none, Option.none⟩]

/-- Whether an Except value is a success. -/
def isOkE {α : Type} : Except Err α → Bool
  | .ok _ => true
  | .error _ => false

/-- The failed-dtrx nesting depth of a trace, bounding the parser fuel. -/
def depthT : Ttrace → Nat
  | .leaf _ _ _ => 0
  | .failed _ _ s _ => depthT s + 1

theorem varNatAux_fuel : ∀ (f1 f2 n : Nat), n ≤ f1 → n ≤ f2 →
    varNatAux f1 n = varNatAux f2 n := by
  intro f1
  induction f1 with
  | zero =>
    intro f2 n h1 h2
    have h0 : n = 0 := by omega
    subst h0
    cases f2 with
    | zero => rfl
    | succ f2 => simp [varNatAux]
  | succ f1 ih =>
    intro f2 n h1 h2
    cases f2 with
    | zero =>
      have h0 : n = 0 := by omega
      subst h0
      simp [varNatAux]
    | succ f2 =>
      rw [varNatAux, varNatAux]
      split
      · rfl
      · rename_i h
        rw [ih f2 (n / 128) (by omega) (by omega)]

theorem varNat_eq (n : Nat) :
    varNat n = if n < 128 then [n] else (n % 128 + 128) :: varNat (n / 128) := by
  rw [varNat]
  cases n with
  | zero => simp [varNatAux]
  | succ m =>
    rw [varNatAux]
    split
    · rfl
    · rename_i h
      rw [varNat, varNatAux_fuel m ((m + 1) / 128) ((m + 1) / 128) (by omega) (le_refl _)]

theorem varNat_ne_nil (n : Nat) : varNat n ≠ [] := by
  rw [varNat_eq]
  split <;> simp

theorem serList_ne_nil (f : α → Bytes) (xs : List α) : serList f xs ≠ [] := by
  unfold serList
  intro h
  exact varNat_ne_nil _ (List.append_eq_nil.mp h).1

theorem pVar_varNat (n : Nat) : ∀ rest, pVar (varNat n ++ rest) = .ok (n, rest) := by
  induction n using Nat.strong_induction_on with
  | _ n ih =>
    intro rest
    rw [varNat_eq]
    split
    · next h => simp [pVar, h]
    · next h =>
      have h2 : ¬ (n % 128 + 128 < 128) := by omega
      have h3 := ih (n / 128) (by omega) rest
      have h4 : n % 128 + 128 * (n / 128) = n := by omega
      simp [pVar, h2, h3, h4]

theorem pU32_u32le (n : Nat) (h : n < 4294967296) (rest : Bytes) :
    pU32 (u32le n ++ rest) = .ok (n, rest) := by
  simp only [u32le, List.cons_append, List.nil_append, pU32, Except.ok.injEq, Prod.mk.injEq,
    and_true]
  omega

theorem pBytesV_serBytes (bs rest : Bytes) :
    pBytesV (serBytes bs ++ rest) = .ok (bs, rest) := by
  unfold pBytesV serBytes
  rw [List.append_assoc, pVar_varNat]
  have hle : bs.length ≤ (bs ++ rest).length := by simp
  simp [hle, List.take_left' rfl, List.drop_left' rfl]

theorem pListN_serItems (p : Bytes → Except Err (α × Bytes)) (f : α → Bytes) :
    ∀ (xs : List α) (rest : Bytes),
      (∀ x ∈ xs, ∀ r, p (f x ++ r) = .ok (x, r)) →
      pListN p xs.length (serItems f xs ++ rest) = .ok (xs, rest)
  | [], rest, _ => by simp [serItems, pListN]
  | x :: xs, rest, hp => by
    have h1 := hp x (by simp)
    have h2 := pListN_serItems p f xs rest (fun y hy r => hp y (by simp [hy]) r)
    simp [serItems, pListN, List.append_assoc, h1, h2]

theorem pList_serList (p : Bytes → Except Err (α × Bytes)) (f : α → Bytes)
    (xs : List α) (rest : Bytes)
    (hp : ∀ x ∈ xs, ∀ r, p (f x ++ r) = .ok (x, r)) :
    pList p (serList f xs ++ rest) = .ok (xs, rest) := by
  unfold pList serList
  rw [List.append_assoc, pVar_varNat]
  exact pListN_serItems p f xs rest hp

theorem serItems_append (f : α → Bytes) (xs ys : List α) :
    serItems f (xs ++ ys) = serItems f xs ++ serItems f ys := by
  induction xs with
  | nil => simp [serItems]
  | cons x xs ih => simp [serItems, ih]

theorem zlib_unpack_zlib_pack_ne {α β : Type} (compress decompress : Bytes → Bytes)
    (ser : α → Bytes) (isEmp : α → Bool) (p : Bytes → Except Err (β × Bytes))
    (x : α) (y obj : β) (rest leftover : Bytes)
    (hemp : isEmp x = false)
    (hinv : decompress (compress (ser x)) = ser x)
    (hp : p (ser x) = .ok (y, leftover))
    (hlen : (compress (ser x)).length < 4294967296)
    (hne : compress (ser x) ≠ []) :
    zlib_unpack decompress p (zlib_pack compress ser isEmp x ++ rest) obj = .ok (y, rest) := by
  unfold zlib_pack zlib_unpack
  rw [hemp]
  simp only [Bool.false_eq_true, if_false, List.append_assoc]
  rw [pU32_u32le _ hlen]
  have hlen0 : (compress (ser x)).length ≠ 0 := by
    intro h0
    exact hne (List.length_eq_zero.mp h0)
  have htake : (compress (ser x) ++ rest).take (compress (ser x)).length = compress (ser x) :=
    List.take_left' rfl
  have hdrop : (compress (ser x) ++ rest).drop (compress (ser x)).length = rest :=
    List.drop_left' rfl
  have hge : ¬ ((compress (ser x) ++ rest).length < (compress (ser x)).length) := by
    simp
  simp [hlen0, hge, htake, hdrop, hinv, hp]

theorem pList_pBytesV_serList (c : List Bytes) (r : Bytes) :
    pList pBytesV (serList serBytes c ++ r) = .ok (c, r) :=
  pList_serList pBytesV serBytes c r (fun x _ r2 => pBytesV_serBytes x r2)

theorem zlib_seg_inv (compress decompress : Bytes → Bytes) (c : List Bytes) (rest : Bytes)
    (hinv : ∀ b, decompress (compress b) = b)
    (hne : ∀ b, b ≠ [] → compress b ≠ [])
    (hlen : c ≠ [] → (compress (serList serBytes c)).length < 4294967296) :
    zlib_unpack decompress (pList pBytesV)
      (zlib_pack compress (serList serBytes) List.isEmpty c ++ rest) [] = .ok (c, rest) := by
  by_cases hc : c = []
  · subst hc
    simp [zlib_pack, zlib_unpack, u32le, pU32]
  · have hp : pList pBytesV (serList serBytes c) = .ok (c, []) := by
      have := pList_pBytesV_serList c []
      simpa using this
    exact zlib_unpack_zlib_pack_ne compress decompress (serList serBytes) List.isEmpty
      (pList pBytesV) c c [] rest [] (by simp [hc]) (hinv _) hp (hlen hc)
      (hne _ (serList_ne_nil _ _))

theorem unpack_pack (compress decompress : Bytes → Bytes) (d : PrunableData) (rest : Bytes)
    (hinv : ∀ b, decompress (compress b) = b)
    (hne : ∀ b, b ≠ [] → compress b ≠ [])
    (hlen : ∀ b ∈ seg_payloads d, (compress b).length < 4294967296) :
    unpack_prunable decompress (pack compress d ++ rest) = .ok (d, rest) := by
  have hsig : ∀ (s : List Nat) (r : Bytes), pList pVar (serList varNat s ++ r) = .ok (s, r) :=
    fun s r => pList_serList pVar varNat s r (fun x _ r2 => pVar_varNat x r2)
  cases d with
  | none => simp [pack, PrunableData.tag, unpack_prunable]
  | full_legacy s c =>
    have hz := zlib_seg_inv compress decompress c rest hinv hne
      (fun hc => hlen _ (by simp [seg_payloads, hc]))
    simp [pack, PrunableData.tag, unpack_prunable, List.append_assoc, hsig, hz]
  | partV s c =>
    have hz := zlib_seg_inv compress decompress c rest hinv hne
      (fun hc => hlen _ (by simp [seg_payloads, hc]))
    simp [pack, PrunableData.tag, unpack_prunable, List.append_assoc, hsig, hz]
  | full s c =>
    have hz := zlib_seg_inv compress decompress c rest hinv hne
      (fun hc => hlen _ (by simp [seg_payloads, hc]))
    simp [pack, PrunableData.tag, unpack_prunable, List.append_assoc, hsig, hz]

theorem pOptNat_serOptNat (r : Option Nat) (rest : Bytes) :
    pOptNat (serOptNat r ++ rest) = .ok (r, rest) := by
  cases r with
  | none => simp [serOptNat, pOptNat]
  | some n =>
    have h := pVar_varNat n rest
    simp [serOptNat, pOptNat, h]

theorem pPartTx_serPartTx (p : PartTx) (rest : Bytes) :
    pPartTx (serPartTx p ++ rest) = .ok (p, rest) := by
  have hsig : ∀ (s : List Nat) (r : Bytes), pList pVar (serList varNat s ++ r) = .ok (s, r) :=
    fun s r => pList_serList pVar varNat s r (fun x _ r2 => pVar_varNat x r2)
  have hcf := pList_pBytesV_serList p.context_free_data rest
  have ho := pVar_varNat p.others
    (serList varNat p.signatures ++ (serList serBytes p.context_free_data ++ rest))
  simp [serPartTx, pPartTx, List.append_assoc, ho, hsig, hcf]

theorem pOptPart_serOptPart (p : Option PartTx) (rest : Bytes) :
    pOptPart (serOptPart p ++ rest) = .ok (p, rest) := by
  cases p with
  | none => simp [serOptPart, pOptPart]
  | some q =>
    have h := pPartTx_serPartTx q rest
    simp [serOptPart, pOptPart, h]

theorem pTrace_serTrace (t : Ttrace) :
    ∀ (fuel : Nat) (rest : Bytes), depthT t ≤ fuel →
      pTrace fuel (serTrace t ++ rest) = .ok (t, rest) := by
  induction t with
  | leaf i r p =>
    intro fuel rest _
    have hi := pVar_varNat i (serOptNat r ++ (0 :: (serOptPart p ++ rest)))
    have hr := pOptNat_serOptNat r (0 :: (serOptPart p ++ rest))
    have hp := pOptPart_serOptPart p rest
    rw [pTrace]
    simp [serTrace, List.append_assoc, hi, hr, hp]
  | failed i r s p ih =>
    intro fuel rest hf
    match fuel, hf with
    | fuel' + 1, hf =>
      have hi := pVar_varNat i (serOptNat r ++ (1 :: (serTrace s ++ (serOptPart p ++ rest))))
      have hr := pOptNat_serOptNat r (1 :: (serTrace s ++ (serOptPart p ++ rest)))
      have hs := ih fuel' (serOptPart p ++ rest) (by simp [depthT] at hf; omega)
      have hp := pOptPart_serOptPart p rest
      rw [pTrace]
      simp [serTrace, List.append_assoc, hi, hr, hs, hp]

theorem varNat_length_pos (n : Nat) : 1 ≤ (varNat n).length := by
  rw [varNat_eq]
  split <;> simp

theorem depthT_le_length (t : Ttrace) : depthT t ≤ (serTrace t).length := by
  induction t with
  | leaf i r p => simp [depthT]
  | failed i r s p ih =>
    have hv := varNat_length_pos i
    simp only [depthT, serTrace, List.length_append, List.length_cons]
    omega

theorem serItems_mem_le (f : α → Bytes) (ts : List α) (t : α) (ht : t ∈ ts) :
    (f t).length ≤ (serItems f ts).length := by
  induction ts with
  | nil => cases ht
  | cons x xs ih =>
    rcases List.mem_cons.mp ht with h | h
    · subst h; simp [serItems]
    · have := ih h
      simp only [serItems, List.length_append]
      omega

theorem pTracesTop_serTraces (ts : List Ttrace) :
    pTracesTop (serTraces ts) = .ok (ts, []) := by
  have hfuel : ∀ t ∈ ts, depthT t ≤ (serTraces ts).length := by
    intro t ht
    have h1 := depthT_le_length t
    have h2 := serItems_mem_le serTrace ts t ht
    simp only [serTraces, serList, List.length_append]
    omega
  have hp : ∀ t ∈ ts, ∀ r, pTrace (serTraces ts).length (serTrace t ++ r) = .ok (t, r) :=
    fun t ht r => pTrace_serTrace t _ r (hfuel t ht)
  have hitems := pListN_serItems (pTrace (serTraces ts).length) serTrace ts [] hp
  unfold pTracesTop
  have hv := pVar_varNat ts.length (serItems serTrace ts)
  conv in serTraces ts => rw [serTraces, serList]
  rw [hv]
  simpa using hitems

theorem pVar_consumed :
    ∀ (b : Bytes) (n : Nat) (rest : Bytes), pVar b = .ok (n, rest) → rest.length + 1 ≤ b.length := by
  intro b
  induction b with
  | nil => intro n rest h; simp [pVar] at h
  | cons x r ih =>
    intro n rest h
    rw [pVar] at h
    by_cases hx : x < 128
    · rw [if_pos hx] at h
      simp at h
      obtain ⟨-, h2⟩ := h
      subst h2
      simp
    · rw [if_neg hx] at h
      cases hr : pVar r with
      | error e => rw [hr] at h; simp at h
      | ok pr =>
        obtain ⟨m, r2⟩ := pr
        rw [hr] at h
        simp at h
        obtain ⟨-, h2⟩ := h
        subst h2
        have := ih m r2 hr
        simp
        omega

theorem pBytesV_consumed (b : Bytes) (v rest : Bytes) (h : pBytesV b = .ok (v, rest)) :
    rest.length ≤ b.length := by
  unfold pBytesV at h
  split at h
  · simp at h
  · rename_i n r hv
    have hc := pVar_consumed b n r hv
    split at h
    · simp at h
      obtain ⟨-, h2⟩ := h
      subst h2
      simp
      omega
    · simp at h

theorem pListN_consumed (p : Bytes → Except Err (α × Bytes))
    (hp : ∀ (b : Bytes) (x : α) (r : Bytes), p b = .ok (x, r) → r.length ≤ b.length) :
    ∀ (n : Nat) (b : Bytes) (xs : List α) (rest : Bytes),
      pListN p n b = .ok (xs, rest) → rest.length ≤ b.length := by
  intro n
  induction n with
  | zero =>
    intro b xs rest h
    simp [pListN] at h
    obtain ⟨-, h2⟩ := h
    subst h2
    exact le_refl _
  | succ n ih =>
    intro b xs rest h
    rw [pListN] at h
    split at h
    · simp at h
    · rename_i x b1 h1
      split at h
      · simp at h
      · rename_i xs2 b2 h2
        simp at h
        obtain ⟨-, h3⟩ := h
        subst h3
        exact le_trans (ih b1 xs2 b2 h2) (hp b x b1 h1)

theorem pList_consumed (p : Bytes → Except Err (α × Bytes))
    (hp : ∀ (b : Bytes) (x : α) (r : Bytes), p b = .ok (x, r) → r.length ≤ b.length)
    (b : Bytes) (xs : List α) (rest : Bytes)
    (h : pList p b = .ok (xs, rest)) : rest.length + 1 ≤ b.length := by
  unfold pList at h
  cases hv : pVar b with
  | error e => rw [hv] at h; simp at h
  | ok pr =>
    obtain ⟨n, b1⟩ := pr
    rw [hv] at h
    have hc := pVar_consumed b n b1 hv
    have := pListN_consumed p hp n b1 xs rest h
    omega

theorem pU32_consumed (b : Bytes) (n : Nat) (rest : Bytes) (h : pU32 b = .ok (n, rest)) :
    rest.length + 4 = b.length := by
  match b with
  | b0 :: b1 :: b2 :: b3 :: r =>
    simp [pU32] at h
    obtain ⟨-, h2⟩ := h
    subst h2
    simp
  | [] => simp [pU32] at h
  | [_] => simp [pU32] at h
  | [_, _] => simp [pU32] at h
  | [_, _, _] => simp [pU32] at h

theorem zlib_unpack_consumed (decompress : Bytes → Bytes)
    (p : Bytes → Except Err (α × Bytes)) (b : Bytes) (obj v : α) (rest : Bytes)
    (h : zlib_unpack decompress p b obj = .ok (v, rest)) : rest.length + 4 ≤ b.length := by
  unfold zlib_unpack at h
  split at h
  · simp at h
  · rename_i len b1 hu
    have hc := pU32_consumed b len b1 hu
    split at h
    · simp at h
      obtain ⟨-, h2⟩ := h
      subst h2
      omega
    · split at h
      · simp at h
      · split at h
        · simp at h
        · rename_i v2 lo hparse
          simp at h
          obtain ⟨-, h2⟩ := h
          subst h2
          have hd : (List.drop len b1).length ≤ b1.length := by simp
          omega

theorem pack_none_length (compress : Bytes → Bytes) :
    (pack compress PrunableData.none).length = 1 := by
  simp [pack, PrunableData.tag]

theorem pack_fl_empty_length (compress : Bytes → Bytes) :
    (pack compress (PrunableData.full_legacy [] [])).length = 6 := by
  simp [pack, PrunableData.tag, serList, serItems, varNat, varNatAux, zlib_pack, u32le]

theorem pack_pv_empty_length (compress : Bytes → Bytes) :
    (pack compress (PrunableData.partV [] [])).length = 6 := by
  simp [pack, PrunableData.tag, serList, serItems, varNat, varNatAux, zlib_pack, u32le]

theorem pack_fu_empty_length (compress : Bytes → Bytes) :
    (pack compress (PrunableData.full [] [])).length = 6 := by
  simp [pack, PrunableData.tag, serList, serItems, varNat, varNatAux, zlib_pack, u32le]

theorem pack_prune_le (compress decompress : Bytes → Bytes) (b : Bytes)
    (d d' : PrunableData) (rest : Bytes)
    (hu : unpack_prunable decompress b = .ok (d, rest))
    (hp : prune d = .ok d') :
    (pack compress d').length + rest.length ≤ b.length := by
  have hpv : ∀ (bb : Bytes) (x : Nat) (r : Bytes), pVar bb = .ok (x, r) → r.length ≤ bb.length := by
    intro bb x r h
    have := pVar_consumed bb x r h
    omega
  cases b with
  | nil => simp [unpack_prunable] at hu
  | cons tag b1 =>
    rw [unpack_prunable] at hu
    split at hu
    · simp at hu
      obtain ⟨hd, hr⟩ := hu
      subst hd
      subst hr
      simp [prune] at hp
      subst hp
      simp [pack_none_length]
      omega
    · split at hu
      · split at hu
        · simp at hu
        · rename_i s b2 hsig
          split at hu
          · simp at hu
          · rename_i c b3 hseg
            have hc1 := pList_consumed pVar hpv b1 s b2 hsig
            have hc2 := zlib_unpack_consumed decompress (pList pBytesV) b2 [] c b3 hseg
            simp at hu
            obtain ⟨hd, hr⟩ := hu
            subst hr
            by_cases h0 : tag = 0
            · rw [if_pos h0] at hd
              subst hd
              rw [prune] at hp
              split at hp
              · rename_i hec
                obtain ⟨hs, hc⟩ := hec
                subst hs; subst hc
                simp at hp
                subst hp
                have := pack_fl_empty_length compress
                simp only [List.length_cons]
                omega
              · simp [prune_all] at hp
                subst hp
                have := pack_none_length compress
                simp only [List.length_cons]
                omega
            · rw [if_neg h0] at hd
              by_cases h2 : tag = 2
              · rw [if_pos h2] at hd
                subst hd
                rw [prune] at hp
                split at hp
                · rename_i hec
                  obtain ⟨hs, hc⟩ := hec
                  subst hs; subst hc
                  simp at hp
                  subst hp
                  have := pack_pv_empty_length compress
                  simp only [List.length_cons]
                  omega
                · simp [prune_all] at hp
              · rw [if_neg h2] at hd
                subst hd
                rw [prune] at hp
                split at hp
                · rename_i hec
                  obtain ⟨hs, hc⟩ := hec
                  subst hs; subst hc
                  simp at hp
                  subst hp
                  have := pack_fu_empty_length compress
                  simp only [List.length_cons]
                  omega
                · simp [prune_all] at hp
                  subst hp
                  have := pack_none_length compress
                  simp only [List.length_cons]
                  omega
      · simp at hu

theorem prune_step_wr (compress decompress : Bytes → Bytes) (i : Nat) (s s' : PruneState)
    (h : prune_step compress decompress i s = .ok s')
    (hwr : s.writePos ≤ s.readPos) : s'.writePos ≤ s'.readPos := by
  rw [prune_step] at h
  split at h
  · simp at h
  · rename_i d rest hu
    split at h
    · split at h
      · simp at h
      · rename_i d' hp
        split at h
        · simp at h
        · rename_i buf' hw
          simp at h
          subst h
          have hle := pack_prune_le compress decompress (s.buf.drop s.readPos) d d' rest hu hp
          have hdl : (List.drop s.readPos s.buf).length = s.buf.length - s.readPos := by
            simp
          simp only []
          omega
    · split at h
      · simp at h
        subst h
        simp only []
        omega
      · split at h
        · simp at h
        · rename_i buf' hw
          simp at h
          subst h
          simp only []
          omega

theorem run_states_all (step : Nat → PruneState → Except Err PruneState)
    (P : PruneState → Prop)
    (hstep : ∀ i s s', step i s = .ok s' → P s → P s') :
    ∀ (l : List Nat) (s : PruneState), P s → ∀ x ∈ run_states step s l, P x := by
  intro l
  induction l with
  | nil =>
    intro s hs x hx
    simp [run_states] at hx
    subst hx
    exact hs
  | cons i is ih =>
    intro s hs x hx
    rw [run_states] at hx
    rcases List.mem_cons.mp hx with h | h
    · subst h
      exact hs
    · revert h
      split
    
      · rename_i s1 hs1
        intro h
        exact ih s1 (hstep i s s1 hs1 hs) x h
      · intro h
        simp at h

/-- Claim C1: for every version-1 entry produced by encode and every redaction
id list, during prune_traces the write cursor position over the shared buffer
is less than or equal to the read cursor position at every step of the
traversal (after initial positioning and after processing each prunable
section), so writes at the write cursor never overwrite original bytes not
yet read. -/
theorem prune_write_cursor_le_read (compress decompress : Bytes → Bytes)
    (augs : List AugTrace) (ids : List Nat) :
    ∀ s ∈ prune_states compress decompress ((pack_traces compress 1 augs).drop 4) ids,
      s.writePos ≤ s.readPos := by
  intro s hs
  rw [prune_states] at hs
  revert hs
  split
  · intro hs
    simp at hs
  · rename_i traces rest hz
    intro hs
    exact run_states_all (prune_step compress decompress)
      (fun st => st.writePos ≤ st.readPos)
      (fun i st st' h hw => prune_step_wr compress decompress i st st' h hw)
      (visit_order_all traces) _ (le_refl _) s hs

theorem run_prune_append (step : Nat → PruneState → Except Err PruneState)
    (s : PruneState) (l1 l2 : List Nat) :
    run_prune step s (l1 ++ l2) =
      match run_prune step s l1 with
      | (Option.some e, s1) => (Option.some e, s1)
      | (Option.none, s1) => run_prune step s1 l2 := by
  induction l1 generalizing s with
  | nil => simp [run_prune]
  | cons i is ih =>
    simp only [List.cons_append, run_prune]
    split
    · rename_i s' hs'
      exact ih s'
    · rfl

theorem visit_prune_run (compress decompress : Bytes → Bytes) (t : Ttrace) (s : PruneState) :
    visit_prune compress decompress t s =
      run_prune (prune_step compress decompress) s (visit_order t) := by
  induction t generalizing s with
  | leaf i r part =>
    cases part with
    | none => simp [visit_prune, visit_order, run_prune]
    | some p =>
      simp only [visit_prune, visit_order, Option.isSome_some, if_true, run_prune]
  | failed i r sub part ih =>
    rw [visit_prune, visit_order, run_prune_append, ih]
    split
    · rfl
    · rename_i s1
      cases part with
      | none => simp [run_prune]
      | some p =>
        simp only [Option.isSome_some, if_true, run_prune]

theorem visit_prune_all_run (compress decompress : Bytes → Bytes)
    (ts : List Ttrace) (s : PruneState) :
    visit_prune_all compress decompress ts s =
      run_prune (prune_step compress decompress) s (visit_order_all ts) := by
  induction ts generalizing s with
  | nil => simp [visit_prune_all, visit_order_all, run_prune]
  | cons t ts ih =>
    rw [visit_prune_all, visit_order_all, run_prune_append, visit_prune_run]
    split
    · rfl
    · rename_i s1 hs1
      exact ih s1

/-- Claim C7: for every empty sequence value, zlib_pack writes exactly a
4-byte zero length and nothing else, independently of the compressor (so
compression is never invoked), and zlib_unpack applied to that encoding
consumes exactly 4 bytes, returns the output object untouched, and is
independent of the decompressor (so decompression is never invoked). -/
theorem zlib_empty_section_law {α β : Type} (compress decompress : Bytes → Bytes)
    (ser : List α → Bytes) (p : Bytes → Except Err (β × Bytes)) (obj : β) (extra : Bytes) :
    zlib_pack compress ser List.isEmpty ([] : List α) = [0, 0, 0, 0] ∧
    zlib_unpack decompress p
      (zlib_pack compress ser List.isEmpty ([] : List α) ++ extra) obj = .ok (obj, extra) := by
  constructor
  · simp [zlib_pack, u32le]
  · simp [zlib_pack, zlib_unpack, u32le, pU32]

/-- Claim C9: calling prune_traces with version 0 always fails with
UnsupportedOperation, for every entry buffer, id list, compressor and
decompressor (so no byte of the entry is inspected), and both the buffer and
the id list are returned unchanged. -/
theorem prune_traces_version_gate (compress decompress : Bytes → Bytes)
    (entry_payload : Bytes) (ids : List Nat) :
    prune_traces compress decompress entry_payload 0 ids =
      (.error .UnsupportedOperation, entry_payload, ids) := by
  simp [prune_traces]

/-- Claim C8: a bounded-source read of `n` bytes with remaining budget below
`n` fails with OutOfRange and performs no partial read (the source state is
returned unchanged); otherwise, when the wrapped source can supply the bytes,
the read succeeds and the remaining budget decreases by exactly `n`. -/
theorem restriced_data_source_read (s : RestrictedSrc) (n : Nat) :
    (s.remaining < n → s.read n = (.error .OutOfRange, s)) ∧
    (n ≤ s.remaining → s.strm.pos + n ≤ s.strm.buf.length →
      s.read n = (.ok ((s.strm.buf.drop s.strm.pos).take n),
        ⟨⟨s.strm.buf, s.strm.pos + n⟩, s.remaining - n⟩)) := by
  constructor
  · intro h
    have hn : ¬ n ≤ s.remaining := by omega
    simp [RestrictedSrc.read, hn]
  · intro h1 h2
    simp [RestrictedSrc.read, DataSrc.read, h1, h2]

/-- Witness for C8: with a budget of 10 over a 12-byte source, reading 11
bytes fails with OutOfRange leaving the state untouched, and reading 10
bytes succeeds with the budget dropping to 0. -/
theorem restriced_data_source_read_w :
    RestrictedSrc.read ⟨⟨[0, 1, 2, 3, 4, 5, 6, 7, 8, 9, 10, 11], 0⟩, 10⟩ 11 =
      (.error .OutOfRange, ⟨⟨[0, 1, 2, 3, 4, 5, 6, 7, 8, 9, 10, 11], 0⟩, 10⟩) ∧
    RestrictedSrc.read ⟨⟨[0, 1, 2, 3, 4, 5, 6, 7, 8, 9, 10, 11], 0⟩, 10⟩ 10 =
      (.ok [0, 1, 2, 3, 4, 5, 6, 7, 8, 9],
       ⟨⟨[0, 1, 2, 3, 4, 5, 6, 7, 8, 9, 10, 11], 10⟩, 0⟩) :=
  ⟨(restriced_data_source_read ⟨⟨[0, 1, 2, 3, 4, 5, 6, 7, 8, 9, 10, 11], 0⟩, 10⟩ 11).1
     (by decide),
   by
    have h := (restriced_data_source_read ⟨⟨[0, 1, 2, 3, 4, 5, 6, 7, 8, 9, 10, 11], 0⟩, 10⟩ 10).2
      (by decide) (by decide)
    simpa using h⟩

/-- Claim C2: whenever prune succeeds on a PrunableData value, the packed
encoding of the pruned value is no longer than the packed encoding of the
original, for every compressor. -/
theorem pack_prune_size_le (compress : Bytes → Bytes) (d d' : PrunableData)
    (h : prune d = .ok d') :
    (pack compress d').length ≤ (pack compress d).length := by
  cases d with
  | none =>
    simp [prune] at h
    subst h
    exact le_refl _
  | full_legacy s c =>
    rw [prune] at h
    split at h
    · rename_i hec
      simp at h
      subst h
      exact le_refl _
    · simp [prune_all] at h
      subst h
      simp [pack_none_length, pack, PrunableData.tag]
  | partV s c =>
    rw [prune] at h
    split at h
    · rename_i hec
      simp at h
      subst h
      exact le_refl _
    · simp [prune_all] at h
  | full s c =>
    rw [prune] at h
    split at h
    · rename_i hec
      simp at h
      subst h
      exact le_refl _
    · simp [prune_all] at h
      subst h
      simp [pack_none_length, pack, PrunableData.tag]

/-- Witness for C2: pruning a full variant carrying one signature and one
context-free segment yields the none form, whose encoding is shorter. -/
theorem pack_prune_size_le_w :
    (pack id PrunableData.none).length ≤
      (pack id (PrunableData.full [5] [[1, 2]])).length :=
  pack_prune_size_le id (PrunableData.full [5] [[1, 2]]) PrunableData.none (by decide)

/-- Counterexample to claim C4: an assemble attempt that fails because the
referenced transaction id has no cached trace leaves the cached_traces map
non-empty, contradicting the claim that the cache is empty after every
attempt. -/
theorem prepare_traces_failure_keeps_cache :
    (prepare_traces conv_cex [TrxRef.tid 9]).1 = .error .MissingData ∧
    (prepare_traces conv_cex [TrxRef.tid 9]).2.cached_traces ≠ [] := by
  decide

/-- Claim C4 (amended): after a successful assemble attempt the cached_traces
map is empty and onblock_trace is absent; after a failed attempt (some
referenced id has no cached receipted trace) the exception propagates before
the clearing statements run, so the accumulator state is returned unchanged. -/
theorem prepare_traces_clear (conv : trace_converter) (blockTrxs : List TrxRef) :
    (isOkE (prepare_traces conv blockTrxs).1 = true →
      (prepare_traces conv blockTrxs).2 = ⟨[], Option.none⟩) ∧
    (isOkE (prepare_traces conv blockTrxs).1 = false →
      (prepare_traces conv blockTrxs).2 = conv) := by
  unfold prepare_traces
  split
  · constructor
    · intro _
      rfl
    · intro h
      simp [isOkE] at h
  · constructor
    · intro h
      simp [isOkE] at h
    · intro _
      rfl

/-- Witness for C4 (amended): a successful assemble clears the accumulator,
and the failing assemble of the counterexample leaves it unchanged. -/
theorem prepare_traces_clear_w :
    (prepare_traces conv_ok [TrxRef.tid 5]).2 = ⟨[], Option.none⟩ ∧
    (prepare_traces conv_cex [TrxRef.tid 9]).2 = conv_cex :=
  ⟨(prepare_traces_clear conv_ok [TrxRef.tid 5]).1 (by decide),
   (prepare_traces_clear conv_cex [TrxRef.tid 9]).2 (by decide)⟩

theorem seg_payloads_all_mem (ds : List PrunableData) (d : PrunableData) (hd : d ∈ ds)
    (b : Bytes) (hb : b ∈ seg_payloads d) : b ∈ seg_payloads_all ds := by
  induction ds with
  | nil => cases hd
  | cons x xs ih =>
    rcases List.mem_cons.mp hd with h | h
    · subst h
      simp [seg_payloads_all]
      exact Or.inl hb
    · simp [seg_payloads_all]
      exact Or.inr (by simpa [seg_payloads_all] using ih h)

theorem zlib_unpack_entry (compress decompress : Bytes → Bytes) (skels : List Ttrace)
    (secs : Bytes)
    (hinv : ∀ b, decompress (compress b) = b)
    (hne : ∀ b, b ≠ [] → compress b ≠ [])
    (hlen : (compress (serTraces skels)).length < 4294967296) :
    zlib_unpack decompress pTracesTop
      (zlib_pack compress serTraces (fun _ => false) skels ++ secs) [] = .ok (skels, secs) :=
  zlib_unpack_zlib_pack_ne compress decompress serTraces (fun _ => false) pTracesTop
    skels skels [] secs [] rfl (hinv _) (pTracesTop_serTraces skels) hlen
    (hne _ (serList_ne_nil _ _))

theorem restore_part_consistent (p : PartTx) (d : PrunableData)
    (hc : consistent_pd p d = true) :
    restore_part_v0 (skeletonP p) d = .ok p := by
  obtain ⟨s0, c0, o0⟩ := p
  cases d with
  | none =>
    simp [consistent_pd] at hc
    obtain ⟨hs, hcf⟩ := hc
    subst hs; subst hcf
    simp [restore_part_v0, skeletonP]
  | full_legacy s c =>
    simp [consistent_pd] at hc
    obtain ⟨hs, hcf⟩ := hc
    subst hs; subst hcf
    simp [restore_part_v0, skeletonP]
  | partV s c => simp [consistent_pd] at hc
  | full s c =>
    simp [consistent_pd] at hc
    obtain ⟨hs, hcf⟩ := hc
    subst hs; subst hcf
    simp [restore_part_v0, skeletonP]

theorem visit_restore_ser (compress decompress : Bytes → Bytes)
    (hinv : ∀ b, decompress (compress b) = b)
    (hne : ∀ b, b ≠ [] → compress b ≠ []) (t : Ttrace) :
    ∀ (packed : Option PackedTrx) (tail : Bytes),
      consistentT packed t = true →
      (∀ d ∈ for_each_packed packed t, ∀ b ∈ seg_payloads d,
        (compress b).length < 4294967296) →
      visit_restore decompress (skeletonT t)
        (serItems (pack compress) (for_each_packed packed t) ++ tail) = .ok (t, tail) := by
  induction t with
  | leaf i r part =>
    intro packed tail hcons hlen
    cases part with
    | none =>
      cases packed with
      | none => simp [skeletonT, for_each_packed, serItems, visit_restore]
      | some pt => simp [consistentT] at hcons
    | some p =>
      cases packed with
      | none => simp [consistentT] at hcons
      | some pt =>
        have hu := unpack_pack compress decompress pt.prunable tail hinv hne
          (fun b hb => hlen pt.prunable (by simp [for_each_packed]) b hb)
        have hr := restore_part_consistent p pt.prunable
          (by simpa [consistentT] using hcons)
        simp [skeletonT, for_each_packed, serItems, visit_restore, hu, hr]
  | failed i r sub part ih =>
    intro packed tail hcons hlen
    have hpn : part = Option.none := by
      cases part with
      | none => rfl
      | some p => simp [consistentT] at hcons
    subst hpn
    have hsub : consistentT packed sub = true := by
      simpa [consistentT] using hcons
    have hlen' : ∀ d ∈ for_each_packed packed sub, ∀ b ∈ seg_payloads d,
        (compress b).length < 4294967296 := by
      intro d hd b hb
      exact hlen d (by simpa [for_each_packed] using hd) b hb
    have hih := ih packed tail hsub hlen'
    simp [skeletonT, for_each_packed, visit_restore, hih]

theorem visit_restore_all_ser (compress decompress : Bytes → Bytes)
    (hinv : ∀ b, decompress (compress b) = b)
    (hne : ∀ b, b ≠ [] → compress b ≠ []) :
    ∀ (augs : List AugTrace) (tail : Bytes),
      (∀ a ∈ augs, consistentA a = true) →
      (∀ d ∈ prunables_list augs, ∀ b ∈ seg_payloads d,
        (compress b).length < 4294967296) →
      visit_restore_all decompress (augs.map (fun a => skeletonT a.trace))
        (serItems (pack compress) (prunables_list augs) ++ tail) =
        .ok (augs.map AugTrace.trace, tail) := by
  intro augs
  induction augs with
  | nil =>
    intro tail _ _
    simp [prunables_list, serItems, visit_restore_all]
  | cons a as ih =>
    intro tail hcons hlen
    have h1 := visit_restore_ser compress decompress hinv hne a.trace a.packed
      (serItems (pack compress) (prunables_list as) ++ tail)
      (hcons a (by simp))
      (fun d hd b hb => hlen d (by simp [prunables_list, hd]) b hb)
    have h2 := ih tail (fun x hx => hcons x (by simp [hx]))
      (fun d hd b hb => hlen d (by simp [prunables_list]; exact Or.inr hd) b hb)
    simp [prunables_list, serItems_append, List.append_assoc, visit_restore_all, h1, h2]

/-- Claim C3: for every consistent trace sequence and version v in {0, 1},
decoding the bytes produced by encoding at version v yields (the serialization
of) the original trace sequence; on the v1 path each trace's signatures and
context-free data are reconstructed exactly from its prunable section when no
pruning occurred.  The compressor/decompressor pair is assumed inverse,
nonempty-preserving, and within the 32-bit length field. -/
theorem decode_encode_roundtrip (compress decompress : Bytes → Bytes) (version : Nat)
    (augs : List AugTrace)
    (hv : version = 0 ∨ version = 1)
    (hinv : ∀ b, decompress (compress b) = b)
    (hne : ∀ b, b ≠ [] → compress b ≠ [])
    (hlen : ∀ b ∈ payloads_of augs, (compress b).length < 4294967296)
    (hcons : ∀ a ∈ augs, consistentA a = true) :
    to_traces_bin_v0 decompress ((pack_traces compress version augs).drop 4) version =
      .ok (serTraces (augs.map AugTrace.trace)) := by
  rcases hv with hv | hv
  · subst hv
    have hdrop : (zlib_pack compress serTraces (fun _ => false)
        (augs.map AugTrace.trace)).drop 4 =
        compress (serTraces (augs.map AugTrace.trace)) := by
      simp only [zlib_pack, Bool.false_eq_true, if_false]
      exact List.drop_left' (by simp [u32le])
    simp [pack_traces, to_traces_bin_v0, hdrop, hinv]
  · subst hv
    have hpay : (pack_traces compress 1 augs).drop 4 =
        zlib_pack compress serTraces (fun _ => false)
          (augs.map (fun a => skeletonT a.trace)) ++
        serItems (pack compress) (prunables_list augs) := by
      simp only [pack_traces, one_ne_zero, if_false]
      exact List.drop_left' (by simp [u32le])
    have hz := zlib_unpack_entry compress decompress
      (augs.map (fun a => skeletonT a.trace))
      (serItems (pack compress) (prunables_list augs)) hinv hne
      (hlen _ (by simp [payloads_of]))
    have hseg : ∀ d ∈ prunables_list augs, ∀ b ∈ seg_payloads d,
        (compress b).length < 4294967296 := by
      intro d hd b hb
      refine hlen b ?_
      simp only [payloads_of, List.mem_cons]
      exact Or.inr (seg_payloads_all_mem _ d hd b hb)
    have hres : visit_restore_all decompress (augs.map (fun a => skeletonT a.trace))
        (serItems (pack compress) (prunables_list augs)) =
        .ok (augs.map AugTrace.trace, []) := by
      have h := visit_restore_all_ser compress decompress hinv hne augs [] hcons hseg
      simpa using h
    rw [hpay]
    simp [to_traces_bin_v0, hz, hres]

/-- Witness for C3: the two-trace demo sequence round-trips at version 0 and
at version 1 with the identity compressor. -/
theorem decode_encode_roundtrip_w :
    to_traces_bin_v0 id ((pack_traces id 0 augs_demo).drop 4) 0 =
      .ok (serTraces (augs_demo.map AugTrace.trace)) ∧
    to_traces_bin_v0 id ((pack_traces id 1 augs_demo).drop 4) 1 =
      .ok (serTraces (augs_demo.map AugTrace.trace)) :=
  ⟨decode_encode_roundtrip id id 0 augs_demo (Or.inl rfl) (fun _ => rfl) (fun _ h => h)
     (by decide) (by decide),
   decode_encode_roundtrip id id 1 augs_demo (Or.inr rfl) (fun _ => rfl) (fun _ h => h)
     (by decide) (by decide)⟩

theorem pack_traces_v1_drop4 (compress : Bytes → Bytes) (augs : List AugTrace) :
    (pack_traces compress 1 augs).drop 4 =
      zlib_pack compress serTraces (fun _ => false)
        (augs.map (fun a => skeletonT a.trace)) ++
      serItems (pack compress) (prunables_list augs) := by
  simp only [pack_traces, one_ne_zero, if_false]
  exact List.drop_left' (by simp [u32le])

theorem to_traces_v1_eq (compress decompress : Bytes → Bytes) (augs : List AugTrace)
    (hinv : ∀ b, decompress (compress b) = b)
    (hne : ∀ b, b ≠ [] → compress b ≠ [])
    (hlenU : (compress (serTraces (augs.map (fun a => skeletonT a.trace)))).length
      < 4294967296) :
    to_traces_bin_v0 decompress ((pack_traces compress 1 augs).drop 4) 1 =
      match visit_restore_all decompress (augs.map (fun a => skeletonT a.trace))
          (serItems (pack compress) (prunables_list augs)) with
      | .error e => .error e
      | .ok (traces', _) => .ok (serTraces traces') := by
  have hz := zlib_unpack_entry compress decompress
    (augs.map (fun a => skeletonT a.trace))
    (serItems (pack compress) (prunables_list augs)) hinv hne hlenU
  rw [pack_traces_v1_drop4]
  simp only [to_traces_bin_v0, one_ne_zero, if_false, hz]

/-- Counterexample to claim C5: decoding a concrete version-1 entry whose
prunable section is the Partial variant does not succeed — it fails with the
"Not implemented" error raised by restore_partial. -/
theorem decode_partial_fails_cex :
    to_traces_bin_v0 id ((pack_traces id 1 [aug_partV]).drop 4) 1 =
      .error .NotImplemented := by
  decide

/-- Claim C5 (amended): decoding a version-1 entry that contains a prunable
section of the Partial variant fails with the "Not implemented" error: the
Partial value is deserialized, but restore_partial refuses to attach it to
the corresponding trace. -/
theorem decode_partial_fails (compress decompress : Bytes → Bytes)
    (i : Nat) (r : Option Nat) (p : PartTx) (pid : Nat) (s : List Nat) (c : List Bytes)
    (hinv : ∀ b, decompress (compress b) = b)
    (hne : ∀ b, b ≠ [] → compress b ≠ [])
    (hlen : ∀ b ∈ payloads_of
        [⟨.leaf i r (Option.some p), Option.some ⟨pid, .partV s c⟩⟩],
      (compress b).length < 4294967296) :
    to_traces_bin_v0 decompress
      ((pack_traces compress 1
        [⟨.leaf i r (Option.some p), Option.some ⟨pid, .partV s c⟩⟩]).drop 4) 1 =
      .error .NotImplemented := by
  rw [to_traces_v1_eq compress decompress _ hinv hne (hlen _ (by simp [payloads_of]))]
  have hu : unpack_prunable decompress (pack compress (.partV s c)) =
      .ok (.partV s c, []) := by
    have h := unpack_pack compress decompress (.partV s c) [] hinv hne
      (fun b hb => hlen b (by
        simp only [payloads_of, prunables_list, for_each_packed, seg_payloads_all,
          List.append_nil, List.mem_cons]
        exact Or.inr (by simpa [seg_payloads_all] using hb)))
    simpa using h
  simp [prunables_list, for_each_packed, serItems, visit_restore_all, visit_restore,
    skeletonT, hu, restore_part_v0]

/-- Witness for C5 (amended): the concrete Partial-carrying entry decodes to
the "Not implemented" error. -/
theorem decode_partial_fails_w :
    to_traces_bin_v0 id ((pack_traces id 1
      [⟨.leaf 3 (Option.some 1) (Option.some ⟨[], [], 11⟩),
        Option.some ⟨3, .partV [7] []⟩⟩]).drop 4) 1 =
      .error .NotImplemented :=
  decode_partial_fails id id 3 (Option.some 1) ⟨[], [], 11⟩ 3 [7] []
    (fun _ => rfl) (fun _ h => h) (by decide)

/-- Counterexample to claim C6: pruning a concrete version-1 entry whose
matched trace carries a Partial value with empty signatures and empty
context-free segments does not fail — prune returns the Partial unchanged and
the engine re-serializes it. -/
theorem prune_partial_empty_succeeds :
    isOkE (prune_traces id id ((pack_traces id 1 [aug_partV_empty]).drop 4) 1 [7]).1 =
      true := by
  decide

/-- Claim C6 (amended): pruning a version-1 entry in which the matched trace
carries a Partial value with nonempty signatures or nonempty context-free
segments fails with UnsupportedOperation; a Partial with both empty is
instead repacked unchanged without error. -/
theorem prune_partial_fails (compress decompress : Bytes → Bytes)
    (i : Nat) (r : Option Nat) (p : PartTx) (pid : Nat) (s : List Nat) (c : List Bytes)
    (hinv : ∀ b, decompress (compress b) = b)
    (hne : ∀ b, b ≠ [] → compress b ≠ [])
    (hlen : ∀ b ∈ payloads_of
        [⟨.leaf i r (Option.some p), Option.some ⟨pid, .partV s c⟩⟩],
      (compress b).length < 4294967296)
    (hnonempty : ¬ (s = [] ∧ c = [])) :
    (prune_traces compress decompress
      ((pack_traces compress 1
        [⟨.leaf i r (Option.some p), Option.some ⟨pid, .partV s c⟩⟩]).drop 4) 1 [i]).1 =
      .error .UnsupportedOperation := by
  have hz := zlib_unpack_entry compress decompress
    (([⟨.leaf i r (Option.some p), Option.some ⟨pid, .partV s c⟩⟩] : List AugTrace).map
      (fun a => skeletonT a.trace))
    (serItems (pack compress)
      (prunables_list
        ([⟨.leaf i r (Option.some p), Option.some ⟨pid, .partV s c⟩⟩] : List AugTrace)))
    hinv hne (hlen _ (by simp [payloads_of]))
  have hu : unpack_prunable decompress (pack compress (.partV s c)) =
      .ok (.partV s c, []) := by
    have h := unpack_pack compress decompress (.partV s c) [] hinv hne
      (fun b hb => hlen b (by
        simp only [payloads_of, prunables_list, for_each_packed, seg_payloads_all,
          List.append_nil, List.mem_cons]
        exact Or.inr (by simpa [seg_payloads_all] using hb)))
    simpa using h
  have hprune : prune (.partV s c) = .error .UnsupportedOperation := by
    rw [prune, if_neg hnonempty]
    rfl
  rw [pack_traces_v1_drop4]
  have hstart : ∀ (z ss : Bytes), (z ++ ss).length - ss.length = z.length := by
    intro z ss
    simp
  have hdrop : ∀ (z ss : Bytes), (z ++ ss).drop z.length = ss := fun z ss =>
    List.drop_left z ss
  simp [skeletonT, prunables_list, for_each_packed, serItems] at hz
  simp [prune_traces, hz, hstart, hdrop, prunables_list, for_each_packed, serItems,
    visit_prune_all, visit_prune, prune_step, skeletonT, hu, hprune]

/-- Witness for C6 (amended): pruning the concrete entry whose matched trace
carries a nonempty Partial fails with UnsupportedOperation. -/
theorem prune_partial_fails_w :
    (prune_traces id id ((pack_traces id 1
      [⟨.leaf 3 (Option.some 1) (Option.some ⟨[], [], 11⟩),
        Option.some ⟨3, .partV [7] []⟩⟩]).drop 4) 1 [3]).1 =
      .error .UnsupportedOperation :=
  prune_partial_fails id id 3 (Option.some 1) ⟨[], [], 11⟩ 3 [7] []
    (fun _ => rfl) (fun _ h => h) (by decide) (by decide)

/-- Witness for C1: the initial cursor state of pruning the demo entry is a
traversal state, and its write cursor does not exceed its read cursor. -/
theorem prune_write_cursor_le_read_w :
    (⟨(pack_traces id 1 augs_demo).drop 4, 18, 18, 0, [4]⟩ : PruneState).writePos ≤
      (⟨(pack_traces id 1 augs_demo).drop 4, 18, 18, 0, [4]⟩ : PruneState).readPos :=
  prune_write_cursor_le_read id id augs_demo [4]
    ⟨(pack_traces id 1 augs_demo).drop 4, 18, 18, 0, [4]⟩ (by decide)

theorem visit_order_skeletonT (t : Ttrace) : visit_order (skeletonT t) = visit_order t := by
  induction t with
  | leaf i r p => cases p <;> simp [skeletonT, visit_order]
  | failed i r s p ih => cases p <;> simp [skeletonT, visit_order, ih]

theorem visit_order_all_skeleton (augs : List AugTrace) :
    visit_order_all (augs.map (fun a => skeletonT a.trace)) =
      visit_order_all (augs.map AugTrace.trace) := by
  induction augs with
  | nil => simp [visit_order_all]
  | cons a as ih => simp [visit_order_all, visit_order_skeletonT, ih]

theorem visit_order_length (packed : Option PackedTrx) (t : Ttrace)
    (hc : consistentT packed t = true) :
    (visit_order t).length = (for_each_packed packed t).length := by
  induction t with
  | leaf i r part =>
    cases part with
    | none =>
      cases packed with
      | none => simp [visit_order, for_each_packed]
      | some pt => simp [consistentT] at hc
    | some p =>
      cases packed with
      | none => simp [consistentT] at hc
      | some pt => simp [visit_order, for_each_packed]
  | failed i r sub part ih =>
    have hpn : part = Option.none := by
      cases part with
      | none => rfl
      | some p => simp [consistentT] at hc
    subst hpn
    have hsub : consistentT packed sub = true := by simpa [consistentT] using hc
    simp [visit_order, for_each_packed, ih hsub]

theorem visit_order_all_length (augs : List AugTrace)
    (hc : ∀ a ∈ augs, consistentA a = true) :
    (visit_order_all (augs.map AugTrace.trace)).length = (prunables_list augs).length := by
  induction augs with
  | nil => simp [visit_order_all, prunables_list]
  | cons a as ih =>
    have h1 := visit_order_length a.packed a.trace (hc a (by simp))
    have h2 := ih (fun x hx => hc x (by simp [hx]))
    simp [visit_order_all, prunables_list, h1, h2]

theorem run_prune_cons_ok (step : Nat → PruneState → Except Err PruneState)
    (s s' : PruneState) (i : Nat) (vs : List Nat) (h : step i s = .ok s') :
    run_prune step s (i :: vs) = run_prune step s' vs := by
  rw [run_prune, h]

theorem run_prune_skip (compress decompress : Bytes → Bytes)
    (hinv : ∀ b, decompress (compress b) = b)
    (hne : ∀ b, b ≠ [] → compress b ≠ []) :
    ∀ (vids : List Nat) (ds : List PrunableData) (s : PruneState) (tail : Bytes),
      vids.length = ds.length →
      (∀ i ∈ vids, s.ids.contains i = false) →
      s.changePos = 0 →
      s.buf.drop s.readPos = serItems (pack compress) ds ++ tail →
      (∀ d ∈ ds, ∀ b ∈ seg_payloads d, (compress b).length < 4294967296) →
      run_prune (prune_step compress decompress) s vids =
        (Option.none, ⟨s.buf, s.readPos + (serItems (pack compress) ds).length,
          s.writePos + (serItems (pack compress) ds).length, 0, s.ids⟩) := by
  intro vids
  induction vids with
  | nil =>
    intro ds s tail hlen _ hcp _ _
    have hds : ds = [] := List.length_eq_zero.mp hlen.symm
    subst hds
    simp [run_prune, serItems]
    rw [← hcp]
  | cons i vs ih =>
    intro ds s tail hlen hdisj hcp hbuf hseg
    cases ds with
    | nil => simp at hlen
    | cons d ds' =>
      have hu : unpack_prunable decompress (s.buf.drop s.readPos) =
          .ok (d, serItems (pack compress) ds' ++ tail) := by
        rw [hbuf]
        have h := unpack_pack compress decompress d
          (serItems (pack compress) ds' ++ tail) hinv hne
          (fun b hb => hseg d (by simp) b hb)
        simpa [serItems, List.append_assoc] using h
      have hcont : s.ids.contains i = false := hdisj i (by simp)
      have hconsumed : s.buf.length - s.readPos -
          ((serItems (pack compress) ds').length + tail.length) = (pack compress d).length := by
        have h0 : (List.drop s.readPos s.buf).length =
            (serItems (pack compress) (d :: ds') ++ tail).length := by rw [hbuf]
        simp only [List.length_drop, List.length_append, serItems] at h0
        omega
      have hstep : prune_step compress decompress i s =
          .ok ⟨s.buf, s.readPos + (pack compress d).length,
               s.writePos + (pack compress d).length, 0, s.ids⟩ := by
        have hnm : ¬ i ∈ s.ids := by
          intro hm
          rw [List.contains_eq_any_beq] at hcont
          have : s.ids.any (i == ·) = true := List.any_eq_true.mpr ⟨i, hm, by simp⟩
          rw [this] at hcont
          cases hcont
        rw [prune_step, hu]
        simp [hcont, hnm, hcp, hconsumed]
      rw [run_prune_cons_ok _ _ _ _ _ hstep]
      have hbuf' : s.buf.drop (s.readPos + (pack compress d).length) =
          serItems (pack compress) ds' ++ tail := by
        have h1 : s.buf.drop (s.readPos + (pack compress d).length) =
            (s.buf.drop s.readPos).drop (pack compress d).length := by
          rw [List.drop_drop, Nat.add_comm]
        rw [h1, hbuf]
        simp [serItems, List.append_assoc, List.drop_left' rfl]
      have hrec := ih ds'
        ⟨s.buf, s.readPos + (pack compress d).length,
         s.writePos + (pack compress d).length, 0, s.ids⟩ tail
        (by simpa using hlen)
        (fun j hj => hdisj j (by simp [hj]))
        rfl hbuf'
        (fun x hx b hb => hseg x (by simp [hx]) b hb)
      rw [hrec]
      simp [serItems, Nat.add_assoc]

/-- Claim C10: for every version-1 entry produced by encode and every
redaction id list in which no id matches a trace in the entry, prune_traces
writes no bytes at all — the entry buffer is returned byte-for-byte unchanged
and the id list intact — and the changed region is the zero-length pair
(0, 0). -/
theorem prune_traces_no_match (compress decompress : Bytes → Bytes)
    (augs : List AugTrace) (ids : List Nat)
    (hinv : ∀ b, decompress (compress b) = b)
    (hne : ∀ b, b ≠ [] → compress b ≠ [])
    (hlen : ∀ b ∈ payloads_of augs, (compress b).length < 4294967296)
    (hcons : ∀ a ∈ augs, consistentA a = true)
    (hdisj : ∀ i ∈ visit_order_all (augs.map AugTrace.trace), ids.contains i = false) :
    prune_traces compress decompress ((pack_traces compress 1 augs).drop 4) 1 ids =
      (.ok (0, 0), (pack_traces compress 1 augs).drop 4, ids) := by
  rw [pack_traces_v1_drop4]
  have hz := zlib_unpack_entry compress decompress (augs.map (fun a => skeletonT a.trace))
    (serItems (pack compress) (prunables_list augs)) hinv hne
    (hlen _ (by simp [payloads_of]))
  have hseg : ∀ d ∈ prunables_list augs, ∀ b ∈ seg_payloads d,
      (compress b).length < 4294967296 := by
    intro d hd b hb
    refine hlen b ?_
    simp only [payloads_of, List.mem_cons]
    exact Or.inr (seg_payloads_all_mem _ d hd b hb)
  have hrun := run_prune_skip compress decompress hinv hne
    (visit_order_all (augs.map AugTrace.trace)) (prunables_list augs)
    ⟨zlib_pack compress serTraces (fun _ => false) (augs.map (fun a => skeletonT a.trace)) ++
      serItems (pack compress) (prunables_list augs),
     (zlib_pack compress serTraces (fun _ => false)
       (augs.map (fun a => skeletonT a.trace))).length,
     (zlib_pack compress serTraces (fun _ => false)
       (augs.map (fun a => skeletonT a.trace))).length, 0, ids⟩ []
    (visit_order_all_length augs hcons)
    (fun i hi => hdisj i hi)
    rfl
    (by rw [List.append_nil]; exact List.drop_left _ _)
    hseg
  have hvall : visit_prune_all compress decompress
      (augs.map (fun a => skeletonT a.trace))
      ⟨zlib_pack compress serTraces (fun _ => false) (augs.map (fun a => skeletonT a.trace)) ++
        serItems (pack compress) (prunables_list augs),
       (zlib_pack compress serTraces (fun _ => false)
         (augs.map (fun a => skeletonT a.trace))).length,
       (zlib_pack compress serTraces (fun _ => false)
         (augs.map (fun a => skeletonT a.trace))).length, 0, ids⟩ =
      (Option.none,
       ⟨zlib_pack compress serTraces (fun _ => false) (augs.map (fun a => skeletonT a.trace)) ++
        serItems (pack compress) (prunables_list augs),
        (zlib_pack compress serTraces (fun _ => false)
          (augs.map (fun a => skeletonT a.trace))).length +
          (serItems (pack compress) (prunables_list augs)).length,
        (zlib_pack compress serTraces (fun _ => false)
          (augs.map (fun a => skeletonT a.trace))).length +
          (serItems (pack compress) (prunables_list augs)).length, 0, ids⟩) := by
    rw [visit_prune_all_run, visit_order_all_skeleton, hrun]
  have hstart : (zlib_pack compress serTraces (fun _ => false)
      (augs.map (fun a => skeletonT a.trace)) ++
      serItems (pack compress) (prunables_list augs)).length -
      (serItems (pack compress) (prunables_list augs)).length =
      (zlib_pack compress serTraces (fun _ => false)
        (augs.map (fun a => skeletonT a.trace))).length := by
    simp
  simp only [prune_traces, one_ne_zero, if_false, hz, hstart, hvall, changed_region]
  simp

/-- Witness for C10: pruning the demo entry with an id list matching no trace
returns the buffer byte-for-byte unchanged, the id list intact, and the
zero-length changed region. -/
theorem prune_traces_no_match_w :
    prune_traces id id ((pack_traces id 1 augs_demo).drop 4) 1 [99] =
      (.ok (0, 0), (pack_traces id 1 augs_demo).drop 4, [99]) :=
  prune_traces_no_match id id augs_demo [99] (fun _ => rfl) (fun _ h => h)
    (by decide) (by decide) (by decide)
